import Mathlib

/-!
Verification development for `update.py`, a one-shot scaffolding pipeline
that generates OnDemand app directories from a declarative `apps.json`
configuration.

The embedding models:
  * the configuration data model (`Base`, `App`, resource dimensions,
    VM-image selection) as Lean structures;
  * the pure derivation of ERB substitution variables
    (`update_form_and_manifest`, lines 50-94 of the source) as `erbVars`;
  * the effectful pipeline (`create_app`, `copy_base_repo`,
    `update_form_and_manifest`, `main`) as an interpreter producing a
    trace of filesystem/shell effects over an abstract filesystem, with a
    failure oracle standing for non-zero exit codes of external commands
    (`subprocess.check_call` raising `CalledProcessError`);
  * `load_apps` (the presence-of-key sanity check) over a raw
    key-value document.

Paths are modelled as lists of components (`os.path.join a b` becomes
`a ++ [b]`); values that the source only ever interpolates into strings
(JSON numbers/strings for `value`, `min`, `max`, `base_image`) are
modelled by their textual form.
-/

namespace Update

/-- A filesystem path, as a list of components.  `os.path.join p c` is
`p ++ [c]`, and the f-string `f"{p}/{c}"` in the source concatenates the
same way. -/
abbrev Path := List String

/-- `ROOT_DIR = os.path.dirname(os.path.abspath(__file__))`, an abstract
root component. -/
def ROOT_DIR : Path := ["ROOT"]

/-- `APPS_DIR = os.path.join(ROOT_DIR, 'apps')`. -/
def APPS_DIR : Path := ROOT_DIR ++ ["apps"]

/-- `vm_image` mapping: optional `select` boolean and optional
`base_image` string (`vm_image.get('select', False)`,
`vm_image.get('base_image')`). -/
structure VmImage where
  select : Option Bool := none
  base_image : Option String := none
deriving DecidableEq, Repr

/-- A resource dimension (`cpu` or `memory`): required `value`
(`memory['value']`), optional `select`, `min`, `max` (accessed with
`.get`, so absence yields the default `False` / `None`).  Scalar values
are modelled by the textual form the f-strings interpolate. -/
structure Resource where
  value : String
  select : Option Bool := none
  min : Option String := none
  max : Option String := none
deriving DecidableEq, Repr

/-- One app entry of `apps.json`: required `app_name`, `title`, `name`,
`cpu`, `memory`; optional overrides `vm_image` and
`use_custom_image_file`. -/
structure App where
  app_name : String
  title : String
  name : String
  cpu : Resource
  memory : Resource
  vm_image : Option VmImage := none
  use_custom_image_file : Option Bool := none
deriving DecidableEq, Repr

/-- The `base` mapping of `apps.json`. -/
structure Base where
  app_type : String
  git_url : String
  git_dir : String
  git_branch : String
  vm_image : VmImage
  use_custom_image_file : Bool
deriving DecidableEq, Repr

/-- The parsed configuration document: `data['base']` and `data['apps']`. -/
structure Config where
  base : Base
  apps : List App
deriving DecidableEq, Repr

/-- Python string interpolation of a value that may be `None`:
`f"{x}"` is `"None"` when `x` is `None`. -/
def pyOptStr : Option String → String
  | some s => s
  | none => "None"

/-- `str(b).lower()` for a Python boolean. -/
def pyBoolStr (b : Bool) : String := if b then "true" else "false"

/-- The ERB substitution variables derived for one app
(`update_form_and_manifest`, lines 50-94): a list of
(variable name, rendered value) pairs, in emission order.  Each entry
`(n, v)` stands for the appended line `f"{n} = {v}"`. -/
def erbVars (base : Base) (app : App) : List (String × String) :=
  let title := app.title
  let name := app.name
  let use_custom_image_file := app.use_custom_image_file.getD base.use_custom_image_file
  let vm_image := app.vm_image.getD base.vm_image
  let base_image_select := vm_image.select.getD false
  let base_image := vm_image.base_image
  let memory := app.memory
  let memory_value := memory.value
  let memory_select := memory.select.getD false
  let memory_min := memory.min
  let memory_max := memory.max
  let cpu := app.cpu
  let cpu_value := cpu.value
  let cpu_select := cpu.select.getD false
  let cpu_min := cpu.min
  let cpu_max := cpu.max
  [("@title", "\x27" ++ title ++ "\x27"),
   ("@name", "\x27" ++ name ++ "\x27")]
  ++ (if memory_select then
        [("@custom_memory_per_node_select", "true"),
         ("@custom_memory_per_node_min", pyOptStr memory_min),
         ("@custom_memory_per_node_max", pyOptStr memory_max)]
      else [])
  ++ [("@custom_memory_per_node", memory_value)]
  ++ (if cpu_select then
        [("@custom_num_cores_select", "true"),
         ("@custom_num_cores_min", pyOptStr cpu_min),
         ("@custom_num_cores_max", pyOptStr cpu_max)]
      else [])
  ++ [("@custom_num_cores", cpu_value)]
  ++ (if ¬ base_image_select then
        [("@base_image_select", "false"),
         ("@base_image", pyOptStr base_image)]
      else
        [("@base_image_select", "true")])
  ++ [("@use_custom_image_file", pyBoolStr use_custom_image_file)]

/-- One line of the intermediate variables file (`vars.rb`). -/
def renderVar (p : String × String) : String := p.1 ++ " = " ++ p.2

/-- The content written to `vars.rb`:
`"\n".join(erb_vars) + "\n"`. -/
def varsFileContent (base : Base) (app : App) : String :=
  String.intercalate "\n" ((erbVars base app).map renderVar) ++ "\n"

/-- The names of the emitted substitution variables, in order. -/
def erbVarNames (base : Base) (app : App) : List String :=
  (erbVars base app).map Prod.fst

/-! ## The effectful pipeline

`create_app` / `copy_base_repo` / `update_form_and_manifest` / `main` are
modelled as an interpreter over an abstract filesystem.  Each external
command or filesystem call becomes one `Eff`; `subprocess.check_call`
raising `CalledProcessError` (or `os.makedirs` / `open` failing) is
modelled by a failure oracle: a failing call aborts the whole run with
the state reached so far, mirroring the uncaught Python exception. -/

/-- The kind of a filesystem entry.  The source only ever calls
`os.path.exists`, which is true for any kind of entry. -/
inductive EKind where
  | dir
  | file
  | symlink
  | other
deriving DecidableEq, Repr

/-- One filesystem entry: a path plus what kind of entry sits there. -/
structure Entry where
  path : Path
  kind : EKind
deriving DecidableEq, Repr

/-- The abstract filesystem: the collection of existing entries. -/
abbrev FS := List Entry

/-- `os.path.exists`: some entry (of any kind) exists at `p`. -/
def pathExists (fs : FS) (p : Path) : Bool :=
  fs.any (fun e => e.path == p)

/-- One effect of the pipeline, one constructor per call site:
`os.makedirs`, `git clone --single-branch --branch ...`,
`cp -R src dest`, writing `vars.rb`, `erb ... tmpl > out`, `rm p`. -/
inductive Eff where
  | makedirs (dest : Path)
  | clone (branch url : String) (dest : Path)
  | copy (src dest : Path)
  | writeVars (dest : Path) (content : String)
  | render (varsFile tmpl out : Path)
  | remove (p : Path)
deriving DecidableEq, Repr

/-- The filesystem footprint of a successful effect.  `makedirs` and
`clone` create directories, `cp -R` / the `vars.rb` write / the `erb`
output redirect create entries at their destination (kind taken as
`file`; no later step inspects kinds), `rm` removes the entry at `p`. -/
def applyEff (fs : FS) : Eff → FS
  | .makedirs p => ⟨p, .dir⟩ :: fs
  | .clone _ _ p => ⟨p, .dir⟩ :: fs
  | .copy _ d => ⟨d, .file⟩ :: fs
  | .writeVars p _ => ⟨p, .file⟩ :: fs
  | .render _ _ o => ⟨o, .file⟩ :: fs
  | .remove p => fs.filter (fun e => ¬ e.path == p)

/-- Interpreter state: the filesystem, the trace of successfully
performed effects (in order), and the lines printed so far. -/
structure S where
  fs : FS
  trace : List Eff
  out : List String
deriving DecidableEq, Repr

/-- Failure oracle: which effects fail (non-zero exit of the external
command, or an OS error from `makedirs` / `open`). -/
abbrev Oracle := Eff → Bool

/-- An aborted run: either the `load_apps` assertion fired, or an effect
failed; in both cases the state at the moment of abort is carried. -/
inductive RunFailure where
  | configError (msg : String) (s : S)
  | effFailed (e : Eff) (s : S)
deriving DecidableEq, Repr

/-- The run monad: a computation that either finishes or aborts. -/
abbrev M (β : Type) := Except RunFailure β

/-- Perform one effect: if the oracle says it fails, abort the run with
the current state; otherwise apply it to the filesystem and record it. -/
def doEff (fail : Oracle) (e : Eff) (s : S) : M S :=
  if fail e then .error (.effFailed e s)
  else .ok { s with fs := applyEff s.fs e, trace := s.trace ++ [e] }

/-- The destination directory of an app: `os.path.join(APPS_DIR, app['app_name'])`. -/
def appDest (app : App) : Path := APPS_DIR ++ [app.app_name]

/-- The local clone path: `os.path.join(ROOT_DIR, base['git_dir'])`. -/
def baseDir (base : Base) : Path := ROOT_DIR ++ [base.git_dir]

/-- The four artifacts copied from the clone into the app directory. -/
def copyFiles : List String :=
  ["form.yml.erb", "manifest.yml.erb", "submit.yml.erb", "template"]

/-- `copy_base_repo(base, app)`: clone the base repository if its path
does not exist, then copy the four artifacts into the app directory. -/
def copy_base_repo (fail : Oracle) (base : Base) (app : App) (s : S) : M S := do
  let base_dir := baseDir base
  let s ←
    if pathExists s.fs base_dir then pure s
    else doEff fail (.clone base.git_branch base.git_url base_dir) s
  let app_dir := appDest app
  copyFiles.foldlM
    (fun s fn => doEff fail (.copy (base_dir ++ [fn]) (app_dir ++ [fn])) s) s

/-- `update_form_and_manifest(base, app)`: write the variables file,
render `form.yml` and `manifest.yml` with `erb`, then remove the two
`.erb` sources and the variables file. -/
def update_form_and_manifest (fail : Oracle) (base : Base) (app : App)
    (s : S) : M S := do
  let app_dir := appDest app
  let erb_vars_file := app_dir ++ ["vars.rb"]
  let s ← doEff fail (.writeVars erb_vars_file (varsFileContent base app)) s
  let s ← doEff fail
    (.render erb_vars_file (app_dir ++ ["form.yml.erb"]) (app_dir ++ ["form.yml"])) s
  let s ← doEff fail
    (.render erb_vars_file (app_dir ++ ["manifest.yml.erb"]) (app_dir ++ ["manifest.yml"])) s
  let s ← doEff fail (.remove (app_dir ++ ["form.yml.erb"])) s
  let s ← doEff fail (.remove (app_dir ++ ["manifest.yml.erb"])) s
  doEff fail (.remove erb_vars_file) s

/-- `create_app(base, app)`: skip (returning `False`) when the
destination exists; otherwise create the directory, copy the base repo
artifacts and render the templates, returning `True`. -/
def create_app (fail : Oracle) (base : Base) (app : App) (s : S) :
    M (Bool × S) := do
  let dest := appDest app
  if pathExists s.fs dest then
    return (false, s)
  let s ← doEff fail (.makedirs dest) s
  let s ← copy_base_repo fail base app s
  let s ← update_form_and_manifest fail base app s
  return (true, s)

/-- Append one printed line. -/
def printLine (l : String) (s : S) : S := { s with out := s.out ++ [l] }

/-- The body of `main`'s loop: run `create_app` for one app and print
its `Created` / `Skipped` line. -/
def processApp (fail : Oracle) (base : Base) (s : S) (app : App) : M S := do
  let (created, s) ← create_app fail base app s
  if created then
    pure (printLine ("Created " ++ app.app_name) s)
  else
    pure (printLine ("Skipped " ++ app.app_name ++ " -- already created") s)

/-- `main`'s per-app loop over `data['apps']`, in document order. -/
def runApps (fail : Oracle) (base : Base) (apps : List App) (s : S) : M S :=
  apps.foldlM (processApp fail base) s

/-! ## `load_apps`: the presence-of-key sanity check

`load_apps` reads the already-parsed JSON document and asserts the
presence of required keys; it is modelled over a raw key-value document
(`RawDoc`), generic in the value type, since only key presence is ever
inspected. -/

/-- The base-level keys `load_apps` requires, in assertion order. -/
def baseRequiredKeys : List String :=
  ["app_type", "git_url", "git_dir", "git_branch", "vm_image", "use_custom_image_file"]

/-- The per-app keys `load_apps` requires, in assertion order. -/
def appRequiredKeys : List String :=
  ["app_name", "title", "name", "cpu", "memory"]

/-- The parsed JSON document, viewed as raw key-value mappings: the
`base` object and the list of app objects. -/
structure RawDoc (α : Type) where
  base : List (String × α)
  apps : List (List (String × α))
deriving DecidableEq, Repr

/-- `key in mapping` for a raw object. -/
def hasKey (m : List (String × α)) (k : String) : Bool :=
  m.any (fun p => p.1 == k)

/-- The first required key missing from a mapping (the first assertion
of the loop to fire), if any. -/
def firstMissing (m : List (String × α)) (keys : List String) : Option String :=
  keys.find? (fun k => !(hasKey m k))

/-- The first app (by index) missing a required key, with that key. -/
def firstBadApp (apps : List (List (String × α))) (i : Nat) :
    Option (Nat × String) :=
  match apps with
  | [] => none
  | a :: rest =>
    match firstMissing a appRequiredKeys with
    | some k => some (i, k)
    | none => firstBadApp rest (i + 1)

/-- `load_apps()`: assert every required base key and every required
app key, then return the parsed document unchanged.  The first failing
assertion aborts with its message (the source message also interpolates
the offending app object; the model keeps the index and key). -/
def load_apps (d : RawDoc α) : Except String (RawDoc α) :=
  match firstMissing d.base baseRequiredKeys with
  | some k => .error ("Base missing required attribute: " ++ k)
  | none =>
    match firstBadApp d.apps 0 with
    | some ik =>
      .error ("App " ++ toString ik.1 ++ " is missing required attribute: " ++ ik.2)
    | none => .ok d

/-- Whether the document passes the sanity check: every base key and
every per-app key is present. -/
def docOk (d : RawDoc α) : Bool :=
  baseRequiredKeys.all (fun k => hasKey d.base k)
    && d.apps.all (fun a => appRequiredKeys.all (fun k => hasKey a k))

/-- `main()`: load and check the configuration, then run the per-app
loop.  `toCfg` is the typed reading of the raw document (plain dict
access in the source); the initial state has an empty trace and no
output. -/
def mainRun (d : RawDoc α) (toCfg : RawDoc α → Config) (fail : Oracle)
    (fs0 : FS) : M S :=
  match load_apps d with
  | .error m => .error (.configError m ⟨fs0, [], []⟩)
  | .ok data => runApps fail (toCfg data).base (toCfg data).apps ⟨fs0, [], []⟩

/-- The state carried by an aborted run. -/
def failState : RunFailure → S
  | .configError _ s => s
  | .effFailed _ s => s

/-- The state reached by a run, whether it finished or aborted. -/
def mState : M S → S
  | .ok s => s
  | .error f => failState f

/-! ## Straight-line effect sequences

Each pipeline function is a straight-line sequence of effects; we
characterize them via a generic executor `runEffs` over the explicit
effect list, and prove the reusable lemmas about `runEffs` once. -/

/-- Run a list of effects in order, aborting at the first failure. -/
def runEffs (fail : Oracle) (effs : List Eff) (s : S) : M S :=
  effs.foldlM (fun s e => doEff fail e s) s

/-- Apply a list of effects to a filesystem (the success path). -/
def applyEffs (fs : FS) (effs : List Eff) : FS :=
  effs.foldl applyEff fs

/-- The path at which a successful effect creates an entry, if any. -/
def addsPath : Eff → Option Path
  | .makedirs p => some p
  | .clone _ _ p => some p
  | .copy _ d => some d
  | .writeVars p _ => some p
  | .render _ _ o => some o
  | .remove _ => none

/-- The effect list of `update_form_and_manifest` for one app. -/
def ufmEffs (base : Base) (app : App) : List Eff :=
  let app_dir := appDest app
  let erb_vars_file := app_dir ++ ["vars.rb"]
  [.writeVars erb_vars_file (varsFileContent base app),
   .render erb_vars_file (app_dir ++ ["form.yml.erb"]) (app_dir ++ ["form.yml"]),
   .render erb_vars_file (app_dir ++ ["manifest.yml.erb"]) (app_dir ++ ["manifest.yml"]),
   .remove (app_dir ++ ["form.yml.erb"]),
   .remove (app_dir ++ ["manifest.yml.erb"]),
   .remove erb_vars_file]

/-- The effect list of `copy_base_repo`, given the filesystem at entry
(which decides whether the clone happens). -/
def cbrEffs (base : Base) (app : App) (fs : FS) : List Eff :=
  (if pathExists fs (baseDir base) then []
   else [.clone base.git_branch base.git_url (baseDir base)])
  ++ copyFiles.map (fun fn => .copy (baseDir base ++ [fn]) (appDest app ++ [fn]))

/-- The full effect list of a non-skipped `create_app`, given the
filesystem at entry. -/
def createEffs (base : Base) (app : App) (fs : FS) : List Eff :=
  .makedirs (appDest app) :: (cbrEffs base app fs ++ ufmEffs base app)

/-- Whether an effect is the git clone. -/
def isClone : Eff → Bool
  | .clone _ _ _ => true
  | _ => false

/-- Number of clone effects in a trace. -/
def countClone (t : List Eff) : Nat := t.countP isClone

/-- The `Created` line printed for a generated app. -/
def createdLine (app : App) : String := "Created " ++ app.app_name

/-- The `Skipped` line printed for an already-created app. -/
def skippedLine (app : App) : String :=
  "Skipped " ++ app.app_name ++ " -- already created"

/-! ## Sample configurations used as concrete inputs -/

/-- A sample base configuration (VM image not selectable). -/
def sBase : Base :=
  { app_type := "vdi", git_url := "https://example/repo.git", git_dir := "base1",
    git_branch := "main", vm_image := { select := some false, base_image := some "centos7" },
    use_custom_image_file := false }

/-- A sample app with fixed resources and no overrides. -/
def sApp : App :=
  { app_name := "myapp", title := "My App", name := "myapp",
    cpu := { value := "2" }, memory := { value := "4096" } }

/-- A sample app with selectable resources and a selectable VM image
override. -/
def sAppSel : App :=
  { app_name := "selapp", title := "Sel App", name := "selapp",
    cpu := { value := "2", select := some true, min := some "1", max := some "8" },
    memory := { value := "4096", select := some true, min := some "1024", max := some "8192" },
    vm_image := some { select := some true, base_image := some "rocky8" } }

/-- A second sample app, distinct from `sApp`. -/
def sApp2 : App :=
  { app_name := "otherapp", title := "Other App", name := "otherapp",
    cpu := { value := "4" }, memory := { value := "8192" } }

/-- The all-succeed oracle: every external command exits 0 and every
filesystem call succeeds. -/
def noFail : Oracle := fun _ => false

/-- The oracle under which the git clone exits non-zero and everything
else succeeds. -/
def failClone : Oracle := isClone

/-- Whether an effect is an `erb` render invocation. -/
def isRender : Eff → Bool
  | .render _ _ _ => true
  | _ => false

/-- The oracle under which every `erb` render exits non-zero and
everything else succeeds. -/
def failRender : Oracle := isRender

/-- The clone-at-most-once invariant: the trace holds at most one clone
effect, and if it holds one then the clone path exists. -/
def CloneOK (base : Base) (s : S) : Prop :=
  countClone s.trace ≤ 1
    ∧ (countClone s.trace = 1 → pathExists s.fs (baseDir base) = true)

/-- A raw document missing most required base keys. -/
def sDocBad : RawDoc Unit := ⟨[("app_type", ())], []⟩

/-- A raw document carrying every required key. -/
def sDocGood : RawDoc Unit :=
  ⟨baseRequiredKeys.map (fun k => (k, ())),
   [appRequiredKeys.map (fun k => (k, ()))]⟩

/-! ## Claims about the derived substitution variables -/

/-- **C1.** For every app, the derived substitution-variable set always
contains the scalar memory value (`@custom_memory_per_node`) and the
scalar cpu value (`@custom_num_cores`); the min and max variables for a
dimension (and that dimension's select variable, emitted with value
`true`) are present if and only if that dimension's `select` field is
present and `true`; when `select` is `false` or absent, min and max are
omitted for that dimension. -/
theorem c1_scalar_always_bounds_iff_select (base : Base) (app : App) :
    ("@custom_memory_per_node", app.memory.value) ∈ erbVars base app
    ∧ ("@custom_num_cores", app.cpu.value) ∈ erbVars base app
    ∧ ("@custom_memory_per_node_min" ∈ erbVarNames base app ↔ app.memory.select = some true)
    ∧ ("@custom_memory_per_node_max" ∈ erbVarNames base app ↔ app.memory.select = some true)
    ∧ (("@custom_memory_per_node_select", "true") ∈ erbVars base app ↔ app.memory.select = some true)
    ∧ ("@custom_num_cores_min" ∈ erbVarNames base app ↔ app.cpu.select = some true)
    ∧ ("@custom_num_cores_max" ∈ erbVarNames base app ↔ app.cpu.select = some true)
    ∧ (("@custom_num_cores_select", "true") ∈ erbVars base app ↔ app.cpu.select = some true) := by
  rcases hm : app.memory.select with _ | mb <;> rcases hc : app.cpu.select with _ | cb <;>
    try cases mb <;> try cases cb
  all_goals
    by_cases hv : (app.vm_image.getD base.vm_image).select.getD false = true <;>
      simp [erbVars, erbVarNames, hm, hc, hv]

/-- Concrete instances of C1: scalar values are emitted for `sApp`, and
its bound variables are absent (its `select` fields are absent). -/
theorem c1_scalar_always_bounds_iff_select_witness :
    ("@custom_memory_per_node", "4096") ∈ erbVars sBase sApp
    ∧ ("@custom_num_cores", "2") ∈ erbVars sBase sApp
    ∧ ("@custom_memory_per_node_min" ∉ erbVarNames sBase sApp)
    ∧ ("@custom_num_cores_min" ∈ erbVarNames sBase sAppSel) := by
  refine ⟨(c1_scalar_always_bounds_iff_select sBase sApp).1,
          (c1_scalar_always_bounds_iff_select sBase sApp).2.1,
          fun h => ?_,
          (c1_scalar_always_bounds_iff_select sBase sAppSel).2.2.2.2.2.1.mpr (by decide)⟩
  have := (c1_scalar_always_bounds_iff_select sBase sApp).2.2.1.mp h
  simp [sApp] at this

/-- **C2.** For every app, when the effective VM image's `select` is
`true` the emitted variable set contains `base_image_select = true` and
no `base_image` variable; when `select` is `false` or absent it
contains both `base_image_select = false` and
`base_image = <base_image>`; the effective VM image is the app's
`vm_image` override if present, else the base's `vm_image`. -/
theorem c2_base_image_branches (base : Base) (app : App) :
    ((app.vm_image.getD base.vm_image).select = some true →
        ("@base_image_select", "true") ∈ erbVars base app
        ∧ "@base_image" ∉ erbVarNames base app)
    ∧ ((app.vm_image.getD base.vm_image).select.getD false = false →
        ("@base_image_select", "false") ∈ erbVars base app
        ∧ ("@base_image", pyOptStr (app.vm_image.getD base.vm_image).base_image)
            ∈ erbVars base app) := by
  rcases hv : (app.vm_image.getD base.vm_image).select with _ | vb <;> try cases vb
  all_goals
    rcases hm : app.memory.select with _ | mb <;> rcases hc : app.cpu.select with _ | cb <;>
      try cases mb <;> try cases cb
  all_goals simp [erbVars, erbVarNames, hm, hc, hv]

/-- Concrete instances of C2: `sAppSel` overrides the VM image with
`select = true` (no `base_image` emitted); `sApp` inherits the base's
`select = false` image (both variables emitted). -/
theorem c2_base_image_branches_witness :
    (("@base_image_select", "true") ∈ erbVars sBase sAppSel
      ∧ "@base_image" ∉ erbVarNames sBase sAppSel)
    ∧ (("@base_image_select", "false") ∈ erbVars sBase sApp
      ∧ ("@base_image", "centos7") ∈ erbVars sBase sApp) :=
  ⟨(c2_base_image_branches sBase sAppSel).1 (by decide),
   (c2_base_image_branches sBase sApp).2 (by decide)⟩

/-- **C10.** When a resource dimension's `select` is `false` or absent,
the corresponding select variable (`@custom_memory_per_node_select` or
`@custom_num_cores_select`) is not emitted at all (it is never emitted
with value `false`), whereas `@base_image_select` and
`@use_custom_image_file` appear in every variables file. -/
theorem c10_select_vars_conditional_image_vars_always (base : Base) (app : App) :
    ("@custom_memory_per_node_select" ∈ erbVarNames base app ↔ app.memory.select = some true)
    ∧ ("@custom_num_cores_select" ∈ erbVarNames base app ↔ app.cpu.select = some true)
    ∧ (∀ v, ("@custom_memory_per_node_select", v) ∈ erbVars base app → v = "true")
    ∧ (∀ v, ("@custom_num_cores_select", v) ∈ erbVars base app → v = "true")
    ∧ "@base_image_select" ∈ erbVarNames base app
    ∧ "@use_custom_image_file" ∈ erbVarNames base app := by
  rcases hm : app.memory.select with _ | mb <;> rcases hc : app.cpu.select with _ | cb <;>
    try cases mb <;> try cases cb
  all_goals
    by_cases hv : (app.vm_image.getD base.vm_image).select.getD false = true <;>
      simp [erbVars, erbVarNames, hm, hc, hv]

/-- Concrete instances of C10: `sApp` (selects absent) emits neither
resource select variable but still emits both image variables. -/
theorem c10_select_vars_conditional_image_vars_always_witness :
    ("@custom_memory_per_node_select" ∉ erbVarNames sBase sApp)
    ∧ ("@custom_num_cores_select" ∉ erbVarNames sBase sApp)
    ∧ "@base_image_select" ∈ erbVarNames sBase sApp
    ∧ "@use_custom_image_file" ∈ erbVarNames sBase sApp := by
  have h := c10_select_vars_conditional_image_vars_always sBase sApp
  refine ⟨fun hm => ?_, fun hc => ?_, h.2.2.2.2.1, h.2.2.2.2.2⟩
  · have := h.1.mp hm
    simp [sApp] at this
  · have := h.2.1.mp hc
    simp [sApp] at this

/-! ## Basic lemmas about the interpreter -/

theorem doEff_ok {fail : Oracle} {e : Eff} {s s' : S}
    (h : doEff fail e s = .ok s') :
    fail e = false ∧ s' = { s with fs := applyEff s.fs e, trace := s.trace ++ [e] } := by
  unfold doEff at h
  split at h <;> simp_all

theorem doEff_error {fail : Oracle} {e : Eff} {s : S} {f : RunFailure}
    (h : doEff fail e s = .error f) :
    fail e = true ∧ f = .effFailed e s := by
  unfold doEff at h
  split at h <;> simp_all

theorem doEff_noFail {fail : Oracle} {e : Eff} {s : S} (h : fail e = false) :
    doEff fail e s = .ok { s with fs := applyEff s.fs e, trace := s.trace ++ [e] } := by
  simp [doEff, h]

theorem doEff_fails {fail : Oracle} {e : Eff} {s : S} (h : fail e = true) :
    doEff fail e s = .error (.effFailed e s) := by
  simp [doEff, h]

@[simp]
theorem ok_bind {ε α β : Type} (a : α) (f : α → Except ε β) :
    (Except.ok a >>= f) = f a := rfl

@[simp]
theorem error_bind {ε α β : Type} (e : ε) (f : α → Except ε β) :
    ((Except.error e : Except ε α) >>= f) = Except.error e := rfl

@[simp]
theorem runEffs_nil (fail : Oracle) (s : S) : runEffs fail [] s = .ok s := rfl

theorem runEffs_cons (fail : Oracle) (e : Eff) (effs : List Eff) (s : S) :
    runEffs fail (e :: effs) s = doEff fail e s >>= runEffs fail effs := rfl

theorem runEffs_append (fail : Oracle) (l₁ l₂ : List Eff) (s : S) :
    runEffs fail (l₁ ++ l₂) s = runEffs fail l₁ s >>= runEffs fail l₂ := by
  induction l₁ generalizing s with
  | nil => simp
  | cons e l ih =>
    simp only [List.cons_append, runEffs_cons, bind_assoc]
    cases doEff fail e s <;> simp [ih]

@[simp]
theorem applyEffs_nil (fs : FS) : applyEffs fs [] = fs := rfl

theorem applyEffs_cons (fs : FS) (e : Eff) (effs : List Eff) :
    applyEffs fs (e :: effs) = applyEffs (applyEff fs e) effs := rfl

theorem applyEffs_append (fs : FS) (l₁ l₂ : List Eff) :
    applyEffs fs (l₁ ++ l₂) = applyEffs (applyEffs fs l₁) l₂ := by
  simp [applyEffs, List.foldl_append]

/-- Success characterization: a successful `runEffs` means every effect
succeeded, the filesystem is the fold of the effects, the trace extends
by exactly the effect list, and the output is untouched. -/
theorem runEffs_ok {fail : Oracle} {effs : List Eff} {s s' : S}
    (h : runEffs fail effs s = .ok s') :
    s' = ⟨applyEffs s.fs effs, s.trace ++ effs, s.out⟩
      ∧ ∀ e ∈ effs, fail e = false := by
  induction effs generalizing s with
  | nil =>
    rw [runEffs_nil] at h
    cases h
    simp
  | cons e l ih =>
    rw [runEffs_cons] at h
    cases he : doEff fail e s with
    | error f => rw [he, error_bind] at h; cases h
    | ok s₁ =>
      rw [he, ok_bind] at h
      obtain ⟨hf, rfl⟩ := doEff_ok he
      obtain ⟨rfl, hall⟩ := ih h
      refine ⟨by simp [applyEffs_cons], ?_⟩
      intro x hx
      rcases List.mem_cons.mp hx with rfl | hx
      · exact hf
      · exact hall x hx

/-- If every effect succeeds, `runEffs` succeeds with the expected
state. -/
theorem runEffs_all_ok {fail : Oracle} {effs : List Eff} (s : S)
    (h : ∀ e ∈ effs, fail e = false) :
    runEffs fail effs s = .ok ⟨applyEffs s.fs effs, s.trace ++ effs, s.out⟩ := by
  induction effs generalizing s with
  | nil => simp
  | cons e l ih =>
    rw [runEffs_cons, doEff_noFail (h e (by simp)), ok_bind]
    rw [ih _ (fun x hx => h x (List.mem_cons_of_mem _ hx))]
    simp [applyEffs_cons]

/-- Failure characterization: an aborted `runEffs` splits the effect
list at the first failing effect; the carried state is the one reached
by the successful prefix. -/
theorem runEffs_error {fail : Oracle} {effs : List Eff} {s : S} {f : RunFailure}
    (h : runEffs fail effs s = .error f) :
    ∃ pre e post, effs = pre ++ e :: post
      ∧ (∀ x ∈ pre, fail x = false) ∧ fail e = true
      ∧ f = .effFailed e ⟨applyEffs s.fs pre, s.trace ++ pre, s.out⟩ := by
  induction effs generalizing s with
  | nil => rw [runEffs_nil] at h; cases h
  | cons e l ih =>
    rw [runEffs_cons] at h
    cases he : doEff fail e s with
    | error f' =>
      rw [he, error_bind] at h
      cases h
      obtain ⟨hf, rfl⟩ := doEff_error he
      exact ⟨[], e, l, by simp, by simp, hf, by simp⟩
    | ok s₁ =>
      rw [he, ok_bind] at h
      obtain ⟨hf, rfl⟩ := doEff_ok he
      obtain ⟨pre, x, post, rfl, hpre, hx, rfl⟩ := ih h
      refine ⟨e :: pre, x, post, by simp, ?_, hx, by simp [applyEffs_cons]⟩
      intro y hy
      rcases List.mem_cons.mp hy with rfl | hy
      · exact hf
      · exact hpre y hy

/-! ## `pathExists` lemmas -/

theorem pathExists_cons (e : Entry) (fs : FS) (p : Path) :
    pathExists (e :: fs) p = ((e.path == p) || pathExists fs p) := by
  simp [pathExists]

theorem pathExists_mono {fs : FS} {p : Path} (e : Entry)
    (h : pathExists fs p = true) : pathExists (e :: fs) p = true := by
  simp [pathExists_cons, h]

theorem pathExists_filter {fs : FS} {p q : Path} (hne : p ≠ q)
    (h : pathExists fs p = true) :
    pathExists (fs.filter fun e => ¬ e.path == q) p = true := by
  simp only [pathExists, List.any_eq_true] at h ⊢
  obtain ⟨e, he, hep⟩ := h
  refine ⟨e, List.mem_filter.mpr ⟨he, ?_⟩, hep⟩
  have : e.path = p := by simpa using hep
  simp [this, hne]

/-- An effect other than `rm p` preserves the existence of `p`. -/
theorem pathExists_applyEff {fs : FS} {p : Path} (e : Eff)
    (hq : ∀ q, e = .remove q → p ≠ q) (h : pathExists fs p = true) :
    pathExists (applyEff fs e) p = true := by
  cases e with
  | remove q => exact pathExists_filter (hq q rfl) h
  | makedirs d => exact pathExists_mono _ h
  | clone b u d => exact pathExists_mono _ h
  | copy a d => exact pathExists_mono _ h
  | writeVars d c => exact pathExists_mono _ h
  | render v t o => exact pathExists_mono _ h

/-- A sequence of effects none of which removes `p` preserves the
existence of `p`. -/
theorem pathExists_applyEffs {fs : FS} {p : Path} {effs : List Eff}
    (hq : ∀ q, Eff.remove q ∈ effs → p ≠ q) (h : pathExists fs p = true) :
    pathExists (applyEffs fs effs) p = true := by
  induction effs generalizing fs with
  | nil => simpa using h
  | cons e l ih =>
    rw [applyEffs_cons]
    refine ih (fun q hql => hq q (List.mem_cons_of_mem _ hql)) ?_
    exact pathExists_applyEff e (fun q hqe => hq q (hqe ▸ List.mem_cons_self _ _)) h

/-! ## Shapes of the emitted effect lists -/

theorem appDest_length (app : App) : (appDest app).length = 3 := by
  simp [appDest, APPS_DIR, ROOT_DIR]

theorem baseDir_length (base : Base) : (baseDir base).length = 2 := by
  simp [baseDir, ROOT_DIR]

theorem appDest_ne_baseDir (app : App) (base : Base) :
    appDest app ≠ baseDir base := by
  intro h
  have := congrArg List.length h
  rw [appDest_length, baseDir_length] at this
  exact absurd this (by decide)

/-- Every `rm` in an app's effect list targets a path of length 4
(a file inside the app directory). -/
theorem createEffs_remove_length {base : Base} {app : App} {fs : FS} {q : Path}
    (h : Eff.remove q ∈ createEffs base app fs) : q.length = 4 := by
  simp only [createEffs, cbrEffs, ufmEffs, copyFiles, List.mem_cons,
    List.mem_append, List.mem_map] at h
  rcases h with h | h | h
  · cases h
  · rcases h with h | h
    · split at h <;> simp_all
    · obtain ⟨fn, -, h⟩ := h
      cases h
  · rcases h with h | h | h | h | h | h | h
    · cases h
    · cases h
    · cases h
    · cases h; simp [appDest, APPS_DIR, ROOT_DIR]
    · cases h; simp [appDest, APPS_DIR, ROOT_DIR]
    · cases h; simp [appDest, APPS_DIR, ROOT_DIR]
    · cases h

/-- A path of length at most 3 (an app destination, the clone path, the
apps root) survives an app's whole effect list. -/
theorem pathExists_createEffs {base : Base} {app : App} {fs fs' : FS} {p : Path}
    (hlen : p.length ≤ 3) (h : pathExists fs' p = true) :
    pathExists (applyEffs fs' (createEffs base app fs)) p = true := by
  refine pathExists_applyEffs (fun q hq => ?_) h
  intro hpq
  have h4 := createEffs_remove_length hq
  rw [hpq] at hlen
  omega

/-! ## The pipeline functions as straight-line effect sequences -/

/-- C9/C6 skip behaviour: if anything exists at the destination,
`create_app` returns `False` immediately and changes nothing. -/
theorem create_app_skip (fail : Oracle) (base : Base) (app : App) {s : S}
    (h : pathExists s.fs (appDest app) = true) :
    create_app fail base app s = .ok (false, s) := by
  simp [create_app, h, pure, Except.pure]

theorem ufm_eq (fail : Oracle) (base : Base) (app : App) (s : S) :
    update_form_and_manifest fail base app s = runEffs fail (ufmEffs base app) s := by
  simp only [update_form_and_manifest, ufmEffs, runEffs, List.foldlM_cons,
    List.foldlM_nil, bind_pure]

theorem cbr_eq (fail : Oracle) (base : Base) (app : App) (s : S) :
    copy_base_repo fail base app s = runEffs fail (cbrEffs base app s.fs) s := by
  by_cases hb : pathExists s.fs (baseDir base) = true <;>
    simp only [copy_base_repo, cbrEffs, hb, if_true, if_false, Bool.false_eq_true,
      copyFiles, List.map_cons, List.map_nil, List.nil_append, List.cons_append,
      runEffs, List.foldlM_cons, List.foldlM_nil, bind_pure, pure_bind]

theorem create_app_eq (fail : Oracle) (base : Base) (app : App) {s : S}
    (h : pathExists s.fs (appDest app) = false) :
    create_app fail base app s
      = (runEffs fail (createEffs base app s.fs) s).map (fun s' => (true, s')) := by
  rw [createEffs, runEffs_cons]
  simp only [create_app, h, Bool.false_eq_true, if_false]
  cases hm : doEff fail (.makedirs (appDest app)) s with
  | error f => simp [Except.map]
  | ok s₁ =>
    obtain ⟨-, hs₁⟩ := doEff_ok hm
    simp only [ok_bind, pure_bind]
    rw [runEffs_append, cbr_eq]
    have hne : (appDest app == baseDir base) = false :=
      beq_eq_false_iff_ne.mpr (appDest_ne_baseDir app base)
    have hfs : cbrEffs base app s₁.fs = cbrEffs base app s.fs := by
      subst hs₁
      simp [cbrEffs, applyEff, pathExists_cons, hne]
    rw [hfs]
    cases hc : runEffs fail (cbrEffs base app s.fs) s₁ with
    | error f => simp [Except.map]
    | ok s₂ =>
      rw [ok_bind, ufm_eq]
      cases hu : runEffs fail (ufmEffs base app) s₂ with
      | error f => simp [hu, Except.map]
      | ok s₃ => simp [hu, Except.map]

/-! ## `processApp` and `runApps` lemmas -/

theorem processApp_skip (fail : Oracle) (base : Base) {s : S} (app : App)
    (h : pathExists s.fs (appDest app) = true) :
    processApp fail base s app = .ok (printLine (skippedLine app) s) := by
  simp [processApp, create_app_skip fail base app h, skippedLine, pure, Except.pure]

theorem processApp_created (fail : Oracle) (base : Base) (app : App) {s s' : S}
    (h : pathExists s.fs (appDest app) = false)
    (hr : runEffs fail (createEffs base app s.fs) s = .ok s') :
    processApp fail base s app = .ok (printLine (createdLine app) s') := by
  simp [processApp, create_app_eq fail base app h, hr, Except.map, createdLine,
    pure, Except.pure]

theorem processApp_error (fail : Oracle) (base : Base) (app : App) {s : S}
    {f : RunFailure} (h : pathExists s.fs (appDest app) = false)
    (hr : runEffs fail (createEffs base app s.fs) s = .error f) :
    processApp fail base s app = .error f := by
  simp [processApp, create_app_eq fail base app h, hr, Except.map]

/-- Inversion for a successful `processApp`: the app was either skipped
(state untouched, `Skipped` line) or created (its effect list ran,
`Created` line). -/
theorem processApp_ok {fail : Oracle} {base : Base} {s s' : S} {app : App}
    (h : processApp fail base s app = .ok s') :
    (pathExists s.fs (appDest app) = true ∧ s' = printLine (skippedLine app) s)
    ∨ (pathExists s.fs (appDest app) = false
        ∧ ∃ s₁, runEffs fail (createEffs base app s.fs) s = .ok s₁
            ∧ s' = printLine (createdLine app) s₁) := by
  by_cases hp : pathExists s.fs (appDest app) = true
  · left
    refine ⟨hp, ?_⟩
    rw [processApp_skip fail base app hp] at h
    cases h
    rfl
  · right
    have hp' : pathExists s.fs (appDest app) = false := by
      simpa using hp
    refine ⟨hp', ?_⟩
    cases hr : runEffs fail (createEffs base app s.fs) s with
    | error f =>
      rw [processApp_error fail base app hp' hr] at h
      cases h
    | ok s₁ =>
      rw [processApp_created fail base app hp' hr] at h
      cases h
      exact ⟨s₁, rfl, rfl⟩

/-- Inversion for a failing `processApp`: the app was not skipped, and
its effect list aborted. -/
theorem processApp_err {fail : Oracle} {base : Base} {s : S} {app : App}
    {f : RunFailure} (h : processApp fail base s app = .error f) :
    pathExists s.fs (appDest app) = false
      ∧ runEffs fail (createEffs base app s.fs) s = .error f := by
  by_cases hp : pathExists s.fs (appDest app) = true
  · rw [processApp_skip fail base app hp] at h
    cases h
  · have hp' : pathExists s.fs (appDest app) = false := by simpa using hp
    refine ⟨hp', ?_⟩
    cases hr : runEffs fail (createEffs base app s.fs) s with
    | error f' =>
      rw [processApp_error fail base app hp' hr] at h
      cases h
      rfl
    | ok s₁ =>
      rw [processApp_created fail base app hp' hr] at h
      cases h

theorem runApps_nil (fail : Oracle) (base : Base) (s : S) :
    runApps fail base [] s = .ok s := rfl

theorem runApps_cons (fail : Oracle) (base : Base) (app : App) (apps : List App)
    (s : S) :
    runApps fail base (app :: apps) s
      = processApp fail base s app >>= runApps fail base apps := rfl

/-- An entry whose path occurs in the filesystem witnesses existence. -/
theorem pathExists_of_mem {fs : FS} {p : Path} {k : EKind}
    (h : (⟨p, k⟩ : Entry) ∈ fs) : pathExists fs p = true := by
  simp only [pathExists, List.any_eq_true]
  exact ⟨⟨p, k⟩, h, by simp⟩

/-- After running an app's effect list (over any filesystem), the app's
destination directory exists: `makedirs` creates it and every later
`rm` targets a file strictly inside an app directory. -/
theorem pathExists_dest_after_createEffs (base : Base) (app : App)
    (fs fs' : FS) :
    pathExists (applyEffs fs' (createEffs base app fs)) (appDest app) = true := by
  rw [createEffs, applyEffs_cons]
  refine pathExists_applyEffs (fun q hq hpq => ?_) ?_
  · have h4 : q.length = 4 :=
      @createEffs_remove_length base app fs q
        (by rw [createEffs]; exact List.mem_cons_of_mem _ hq)
    have h3 := appDest_length app
    rw [hpq, h4] at h3
    cases h3
  · simp [applyEff, pathExists_cons]

/-- Processing any list of apps preserves the existence of any path of
length at most 3 (app destinations, the clone path), whether the run
finishes or aborts. -/
theorem runApps_pres {fail : Oracle} {base : Base} {p : Path}
    (hlen : p.length ≤ 3) :
    ∀ (apps : List App) (s : S), pathExists s.fs p = true →
      pathExists (mState (runApps fail base apps s)).fs p = true := by
  intro apps
  induction apps with
  | nil => intro s h; simpa [runApps_nil, mState] using h
  | cons a l ih =>
    intro s h
    rw [runApps_cons]
    cases hp : processApp fail base s a with
    | error f =>
      rw [error_bind]
      obtain ⟨-, hr⟩ := processApp_err hp
      obtain ⟨pre, e, post, hdec, -, -, rfl⟩ := runEffs_error hr
      simp only [mState, failState]
      refine pathExists_applyEffs (fun q hq hpq => ?_) h
      have h4 : q.length = 4 :=
        createEffs_remove_length (hdec ▸ List.mem_append_left _ hq)
      rw [hpq] at hlen
      omega
    | ok s₁ =>
      rw [ok_bind]
      refine ih s₁ ?_
      rcases processApp_ok hp with ⟨-, rfl⟩ | ⟨-, s₂, hr, rfl⟩
      · simpa [printLine] using h
      · obtain ⟨rfl, -⟩ := runEffs_ok hr
        simp only [printLine]
        refine pathExists_applyEffs (fun q hq hpq => ?_) h
        have h4 : q.length = 4 := createEffs_remove_length hq
        rw [hpq] at hlen
        omega

/-- After a successful run, every app's destination exists. -/
theorem runApps_dests {fail : Oracle} {base : Base} :
    ∀ (apps : List App) (s s' : S), runApps fail base apps s = .ok s' →
      ∀ a ∈ apps, pathExists s'.fs (appDest a) = true := by
  intro apps
  induction apps with
  | nil => intro s s' h a ha; cases ha
  | cons b l ih =>
    intro s s' h a ha
    rw [runApps_cons] at h
    cases hp : processApp fail base s b with
    | error f => rw [hp, error_bind] at h; cases h
    | ok s₁ =>
      rw [hp, ok_bind] at h
      rcases List.mem_cons.mp ha with rfl | ha
      · -- `a`'s destination exists after its own processing, and the
        -- remaining apps preserve it (its path has length 3).
        have h1 : pathExists s₁.fs (appDest a) = true := by
          rcases processApp_ok hp with ⟨hx, rfl⟩ | ⟨-, s₂, hr, rfl⟩
          · simpa [printLine] using hx
          · obtain ⟨rfl, -⟩ := runEffs_ok hr
            simp only [printLine]
            exact pathExists_dest_after_createEffs base a s.fs s.fs
        have := @runApps_pres fail base (appDest a)
          (by rw [appDest_length]) l s₁ h1
        rw [h] at this
        simpa [mState] using this
      · exact ih s₁ s' h a ha

/-- If every app's destination already exists, the run performs no
effect at all: the filesystem and trace are untouched and each app gets
its `Skipped` line. -/
theorem runApps_all_skip {fail : Oracle} {base : Base} :
    ∀ (apps : List App) (s : S),
      (∀ a ∈ apps, pathExists s.fs (appDest a) = true) →
      runApps fail base apps s = .ok { s with out := s.out ++ apps.map skippedLine } := by
  intro apps
  induction apps with
  | nil => intro s h; simp [runApps_nil]
  | cons a l ih =>
    intro s h
    rw [runApps_cons, processApp_skip fail base a (h a (by simp)), ok_bind]
    rw [ih _ (fun b hb => by simpa [printLine] using h b (List.mem_cons_of_mem _ hb))]
    simp [printLine]

/-- A successful run appends exactly one line per app, in document
order, each either the `Created` or the `Skipped` line of its app. -/
theorem runApps_out_lines {fail : Oracle} {base : Base} :
    ∀ (apps : List App) (s s' : S), runApps fail base apps s = .ok s' →
      ∃ lines, s'.out = s.out ++ lines
        ∧ List.Forall₂ (fun a l => l = createdLine a ∨ l = skippedLine a) apps lines := by
  intro apps
  induction apps with
  | nil =>
    intro s s' h
    rw [runApps_nil] at h
    cases h
    exact ⟨[], by simp, List.Forall₂.nil⟩
  | cons a l ih =>
    intro s s' h
    rw [runApps_cons] at h
    cases hp : processApp fail base s a with
    | error f => rw [hp, error_bind] at h; cases h
    | ok s₁ =>
      rw [hp, ok_bind] at h
      obtain ⟨lines, hout, hall⟩ := ih s₁ s' h
      have : ∃ line, s₁.out = s.out ++ [line]
          ∧ (line = createdLine a ∨ line = skippedLine a) := by
        rcases processApp_ok hp with ⟨-, rfl⟩ | ⟨-, s₂, hr, rfl⟩
        · exact ⟨skippedLine a, by simp [printLine], Or.inr rfl⟩
        · obtain ⟨rfl, -⟩ := runEffs_ok hr
          exact ⟨createdLine a, by simp [printLine], Or.inl rfl⟩
      obtain ⟨line, h1, hline⟩ := this
      refine ⟨line :: lines, ?_, List.Forall₂.cons hline hall⟩
      rw [hout, h1]
      simp

/-- **C3.** Running the pipeline a second time on an unchanged
configuration, from the filesystem state left by a successful first
run, performs no scaffolding or rendering work: every app is skipped
(`create_app` returns `False` and the `Skipped` line is printed), the
trace of the second run is empty, and the filesystem is unchanged —
regardless of which external commands would fail on the second run. -/
theorem c3_second_run_skips_everything (fail₁ fail₂ : Oracle) (base : Base)
    (apps : List App) (fs0 : FS) (s₁ : S)
    (h : runApps fail₁ base apps ⟨fs0, [], []⟩ = .ok s₁) :
    runApps fail₂ base apps ⟨s₁.fs, [], []⟩
      = .ok ⟨s₁.fs, [], apps.map skippedLine⟩ := by
  have hdest := runApps_dests apps _ _ h
  have := @runApps_all_skip fail₂ base apps ⟨s₁.fs, [], []⟩
    (fun a ha => hdest a ha)
  simpa using this

/-- Concrete instance of C3: a first run creating `sApp`, then a second
run over the resulting filesystem that only skips. -/
theorem c3_second_run_skips_everything_witness :
    runApps noFail sBase [sApp]
        ⟨(mState (runApps noFail sBase [sApp] ⟨[], [], []⟩)).fs, [], []⟩
      = .ok ⟨(mState (runApps noFail sBase [sApp] ⟨[], [], []⟩)).fs, [],
             [skippedLine sApp]⟩ := by
  have h : runApps noFail sBase [sApp] ⟨[], [], []⟩
      = .ok (mState (runApps noFail sBase [sApp] ⟨[], [], []⟩)) := by rfl
  exact c3_second_run_skips_everything noFail noFail sBase [sApp] [] _ h

/-- **C6.** For every app in the configuration list, processed in
document order, a successful run prints exactly one line per app —
`Created <app_name>` or `Skipped <app_name> -- already created` — and
in the skipped case nothing is copied: the state is returned untouched
apart from the printed line. -/
theorem c6_one_line_per_app (fail : Oracle) (base : Base) :
    (∀ (apps : List App) (fs0 : FS) (s' : S),
      runApps fail base apps ⟨fs0, [], []⟩ = .ok s' →
        List.Forall₂ (fun a l => l = createdLine a ∨ l = skippedLine a) apps s'.out)
    ∧ (∀ (s : S) (app : App), pathExists s.fs (appDest app) = true →
        create_app fail base app s = .ok (false, s)
        ∧ processApp fail base s app = .ok (printLine (skippedLine app) s)) := by
  constructor
  · intro apps fs0 s' h
    obtain ⟨lines, hout, hall⟩ := runApps_out_lines apps _ _ h
    simpa [hout] using hall
  · intro s app h
    exact ⟨create_app_skip fail base app h, processApp_skip fail base app h⟩

/-- Concrete instance of C6: a two-app run prints one line per app in
order, and a pre-existing destination is skipped untouched. -/
theorem c6_one_line_per_app_witness :
    List.Forall₂ (fun a l => l = createdLine a ∨ l = skippedLine a) [sApp, sApp2]
      (mState (runApps noFail sBase [sApp, sApp2] ⟨[], [], []⟩)).out
    ∧ create_app noFail sBase sApp ⟨[⟨appDest sApp, .dir⟩], [], []⟩
        = .ok (false, ⟨[⟨appDest sApp, .dir⟩], [], []⟩) := by
  refine ⟨(c6_one_line_per_app noFail sBase).1 [sApp, sApp2] [] _ (by rfl),
          ((c6_one_line_per_app noFail sBase).2 ⟨[⟨appDest sApp, .dir⟩], [], []⟩ sApp
            (by decide)).1⟩

/-- **C9.** The skip decision is gated on the existence of any
filesystem entry at `<apps_root>/<app_name>`, not specifically a
directory: whatever the kind of the entry at that path, `create_app`
returns `False` with the state untouched and the app is reported
skipped. -/
theorem c9_skip_gates_on_any_entry (fail : Oracle) (base : Base) (app : App)
    (s : S) (k : EKind) (h : (⟨appDest app, k⟩ : Entry) ∈ s.fs) :
    create_app fail base app s = .ok (false, s)
    ∧ processApp fail base s app = .ok (printLine (skippedLine app) s) := by
  have hp := pathExists_of_mem h
  exact ⟨create_app_skip fail base app hp, processApp_skip fail base app hp⟩

/-- Concrete instance of C9: a regular file at the destination path
causes the skip. -/
theorem c9_skip_gates_on_any_entry_witness :
    create_app noFail sBase sApp ⟨[⟨appDest sApp, EKind.file⟩], [], []⟩
      = .ok (false, ⟨[⟨appDest sApp, EKind.file⟩], [], []⟩) :=
  (c9_skip_gates_on_any_entry noFail sBase sApp
    ⟨[⟨appDest sApp, EKind.file⟩], [], []⟩ EKind.file (by decide)).1

/-! ## Clone-counting lemmas (C4) -/

theorem countClone_append (l₁ l₂ : List Eff) :
    countClone (l₁ ++ l₂) = countClone l₁ + countClone l₂ := by
  simp [countClone, List.countP_append]

/-- An app's effect list clones exactly when the clone path was absent
at its entry filesystem. -/
theorem countClone_createEffs (base : Base) (app : App) (fs : FS) :
    countClone (createEffs base app fs)
      = if pathExists fs (baseDir base) then 0 else 1 := by
  by_cases hb : pathExists fs (baseDir base) = true <;>
    simp [createEffs, cbrEffs, ufmEffs, copyFiles, countClone, isClone, hb,
      List.countP_cons, List.countP_append, List.countP_nil]

/-- The only clone effect an app's effect list can contain is the clone
of the base repository into its path. -/
theorem clone_mem_createEffs {base : Base} {app : App} {fs : FS}
    {b u : String} {d : Path} (h : Eff.clone b u d ∈ createEffs base app fs) :
    b = base.git_branch ∧ u = base.git_url ∧ d = baseDir base := by
  simp only [createEffs, cbrEffs, ufmEffs, copyFiles, List.mem_cons,
    List.mem_append, List.mem_map] at h
  rcases h with h | h | h
  · cases h
  · rcases h with h | h
    · split at h
      · cases h
      · rcases List.mem_singleton.mp h with h
        cases h
        exact ⟨rfl, rfl, rfl⟩
    · obtain ⟨fn, -, h⟩ := h
      cases h
  · rcases h with h | h | h | h | h | h | h <;> cases h

/-- If some effect in a list creates an entry at `p` and no effect in
the list removes `p`, then `p` exists after applying the list. -/
theorem pathExists_applyEffs_added {p : Path} :
    ∀ {effs : List Eff} (e : Eff), e ∈ effs → addsPath e = some p →
      (∀ q, Eff.remove q ∈ effs → p ≠ q) →
      ∀ (fs : FS), pathExists (applyEffs fs effs) p = true := by
  intro effs
  induction effs with
  | nil => intro e he; cases he
  | cons x l ih =>
    intro e he hadd hrem fs
    rw [applyEffs_cons]
    rcases List.mem_cons.mp he with rfl | he'
    · refine pathExists_applyEffs
        (fun q hq => hrem q (List.mem_cons_of_mem _ hq)) ?_
      cases e <;> simp only [addsPath] at hadd <;>
        (try cases hadd) <;> simp [applyEff, pathExists_cons]
    · exact ih e he' hadd (fun q hq => hrem q (List.mem_cons_of_mem _ hq)) _

/-- Applying any decomposition prefix of an app's effect list preserves
the clone-at-most-once invariant. -/
theorem cloneOK_step {base : Base} {app : App} {s : S} (hcl : CloneOK base s)
    {pre rest : List Eff} (hdec : createEffs base app s.fs = pre ++ rest)
    (o : List String) :
    CloneOK base ⟨applyEffs s.fs pre, s.trace ++ pre, o⟩ := by
  have hsub : ∀ e ∈ pre, e ∈ createEffs base app s.fs := by
    rw [hdec]
    exact fun e he => List.mem_append_left _ he
  have hremlen : ∀ q, Eff.remove q ∈ pre → baseDir base ≠ q := by
    intro q hq hbq
    have h4 := createEffs_remove_length (hsub _ hq)
    have h2 := baseDir_length base
    rw [hbq, h4] at h2
    cases h2
  have hcount : countClone pre ≤ countClone (createEffs base app s.fs) := by
    rw [hdec, countClone_append]
    omega
  by_cases hb : pathExists s.fs (baseDir base) = true
  · have h0 : countClone pre = 0 := by
      rw [countClone_createEffs, hb, if_pos rfl] at hcount
      omega
    refine ⟨?_, ?_⟩
    · simp only [countClone_append, h0]
      have := hcl.1
      omega
    · intro h1
      rw [countClone_append, h0] at h1
      have := hcl.2 (by omega)
      exact pathExists_applyEffs hremlen this
  · have hb' : pathExists s.fs (baseDir base) = false := by simpa using hb
    have h1 : countClone pre ≤ 1 := by
      rw [countClone_createEffs, hb'] at hcount
      simpa using hcount
    have h0 : countClone s.trace = 0 := by
      rcases Nat.eq_zero_or_pos (countClone s.trace) with hz | hpos
      · exact hz
      · have heq : countClone s.trace = 1 := by
          have := hcl.1
          omega
        have := hcl.2 heq
        rw [hb'] at this
        cases this
    rcases Nat.eq_zero_or_pos (countClone pre) with hz | hpos
    · refine ⟨by simp [countClone_append, hz, h0], ?_⟩
      intro hcontr
      rw [countClone_append, hz, h0] at hcontr
      cases hcontr
    · obtain ⟨e, hepre, hce⟩ := List.countP_pos_iff.mp hpos
      refine ⟨by rw [countClone_append]; omega, fun _ => ?_⟩
      rcases e with d | ⟨b, u, d⟩ | sd | dc | vto | q <;> simp [isClone] at hce
      obtain ⟨-, -, rfl⟩ := clone_mem_createEffs (hsub _ hepre)
      exact pathExists_applyEffs_added _ hepre (by simp [addsPath]) hremlen _

/-- The clone-at-most-once invariant is preserved by the whole per-app
loop, whether the run finishes or aborts. -/
theorem cloneOK_runApps {fail : Oracle} {base : Base} :
    ∀ (apps : List App) (s : S), CloneOK base s →
      CloneOK base (mState (runApps fail base apps s)) := by
  intro apps
  induction apps with
  | nil => intro s h; simpa [runApps_nil, mState] using h
  | cons a l ih =>
    intro s h
    rw [runApps_cons]
    cases hp : processApp fail base s a with
    | error f =>
      rw [error_bind]
      obtain ⟨-, hr⟩ := processApp_err hp
      obtain ⟨pre, e, post, hdec, -, -, rfl⟩ := runEffs_error hr
      simp only [mState, failState]
      exact cloneOK_step h hdec _
    | ok s₁ =>
      rw [ok_bind]
      refine ih s₁ ?_
      rcases processApp_ok hp with ⟨-, rfl⟩ | ⟨-, s₂, hr, rfl⟩
      · simpa [printLine, CloneOK] using h
      · obtain ⟨rfl, -⟩ := runEffs_ok hr
        have := @cloneOK_step base a s h (createEffs base a s.fs) []
          (by simp) (s.out ++ [createdLine a])
        simpa [printLine, CloneOK] using this

/-- **C4 (counterexample).** The claim says the Repository Provisioner
runs exactly once per run, before the per-app loop and before any app
is scaffolded.  On the code, the clone existence check lives inside
`copy_base_repo`, which `create_app` calls *after* `os.makedirs`: with
one fresh app the very first effect of the run is the scaffolder's
`makedirs` and the clone happens after it; and when every app is
skipped, the clone is never performed at all. -/
theorem c4_counterexample_clone_inside_loop :
    (mState (runApps noFail sBase [sApp] ⟨[], [], []⟩)).trace.head?
        = some (Eff.makedirs (appDest sApp))
    ∧ Eff.clone "main" "https://example/repo.git" (baseDir sBase)
        ∈ ((mState (runApps noFail sBase [sApp] ⟨[], [], []⟩)).trace.drop 1)
    ∧ (mState (runApps noFail sBase [sApp, sApp2]
          ⟨[⟨appDest sApp, .dir⟩, ⟨appDest sApp2, .dir⟩], [], []⟩)).trace = [] := by
  refine ⟨rfl, ?_, rfl⟩
  decide

/-- **C4 (amended).** The clone existence check is performed by
`copy_base_repo` inside the per-app loop, once for each app that is
actually created (never for skipped apps); the clone itself is
performed at most once per run — after the first clone the path exists
and no later effect removes it — whether the run finishes or aborts. -/
theorem c4_amended_clone_at_most_once (fail : Oracle) (base : Base)
    (apps : List App) (fs0 : FS) :
    countClone (mState (runApps fail base apps ⟨fs0, [], []⟩)).trace ≤ 1 :=
  (cloneOK_runApps apps ⟨fs0, [], []⟩
    ⟨by simp [countClone], fun h => by simp [countClone] at h⟩).1

/-! ## C5: cleanup only after both renders -/

/-- The scaffolding prefix of an app's effect list — `makedirs`, the
optional clone, the four copies and the variables-file write — contains
no `rm`. -/
theorem remove_not_mem_scaffold {base : Base} {app : App} {fs : FS}
    {vf : Path} {c : String} (q : Path) :
    Eff.remove q ∉
      (Eff.makedirs (appDest app)
        :: (cbrEffs base app fs ++ [Eff.writeVars vf c])) := by
  intro h
  by_cases hb : pathExists fs (baseDir base) = true <;>
    simp [cbrEffs, copyFiles, hb] at h

/-- **C5.** The two `.erb` template sources and the intermediate
variables file are deleted only after both renders succeed: under any
oracle where scaffolding succeeds and a render fails (either the form
render, or the form render succeeds and the manifest render fails), the
run aborts at a render effect with `form.yml.erb`, `manifest.yml.erb`
and `vars.rb` all still present, no `rm` ever performed, and — since
the app directory now exists — any subsequent run skips the app,
leaving the incomplete state unretried. -/
theorem c5_failed_render_leaves_sources (fail : Oracle) (base : Base)
    (app : App) (fs : FS) (hdest : pathExists fs (appDest app) = false)
    (hmk : ∀ d, fail (.makedirs d) = false)
    (hcl : ∀ b u d, fail (.clone b u d) = false)
    (hcp : ∀ a b, fail (.copy a b) = false)
    (hwr : ∀ p c, fail (.writeVars p c) = false)
    (hrd : fail (.render (appDest app ++ ["vars.rb"])
              (appDest app ++ ["form.yml.erb"]) (appDest app ++ ["form.yml"])) = true
      ∨ (fail (.render (appDest app ++ ["vars.rb"])
              (appDest app ++ ["form.yml.erb"]) (appDest app ++ ["form.yml"])) = false
          ∧ fail (.render (appDest app ++ ["vars.rb"])
              (appDest app ++ ["manifest.yml.erb"]) (appDest app ++ ["manifest.yml"])) = true)) :
    ∃ e sf, create_app fail base app ⟨fs, [], []⟩ = .error (.effFailed e sf)
      ∧ isRender e = true
      ∧ pathExists sf.fs (appDest app ++ ["form.yml.erb"]) = true
      ∧ pathExists sf.fs (appDest app ++ ["manifest.yml.erb"]) = true
      ∧ pathExists sf.fs (appDest app ++ ["vars.rb"]) = true
      ∧ (∀ q, Eff.remove q ∉ sf.trace)
      ∧ pathExists sf.fs (appDest app) = true
      ∧ ∀ fail₂, create_app fail₂ base app ⟨sf.fs, [], []⟩
          = .ok (false, ⟨sf.fs, [], []⟩) := by
  have hca : create_app fail base app ⟨fs, [], []⟩
      = (runEffs fail (createEffs base app fs) ⟨fs, [], []⟩).map
          (fun s' => (true, s')) :=
    create_app_eq fail base app hdest
  have hdec : createEffs base app fs
      = (Eff.makedirs (appDest app) :: (cbrEffs base app fs
          ++ [Eff.writeVars (appDest app ++ ["vars.rb"]) (varsFileContent base app)]))
        ++ [Eff.render (appDest app ++ ["vars.rb"])
              (appDest app ++ ["form.yml.erb"]) (appDest app ++ ["form.yml"]),
            Eff.render (appDest app ++ ["vars.rb"])
              (appDest app ++ ["manifest.yml.erb"]) (appDest app ++ ["manifest.yml"]),
            Eff.remove (appDest app ++ ["form.yml.erb"]),
            Eff.remove (appDest app ++ ["manifest.yml.erb"]),
            Eff.remove (appDest app ++ ["vars.rb"])] := by
    simp [createEffs, ufmEffs]
  have hpre_ok : ∀ e ∈ (Eff.makedirs (appDest app) :: (cbrEffs base app fs
      ++ [Eff.writeVars (appDest app ++ ["vars.rb"]) (varsFileContent base app)])),
      fail e = false := by
    intro e he
    rcases List.mem_cons.mp he with rfl | he
    · exact hmk _
    rcases List.mem_append.mp he with he | he
    · simp only [cbrEffs] at he
      rcases List.mem_append.mp he with he | he
      · split at he
        · cases he
        · rcases List.mem_singleton.mp he with rfl
          exact hcl _ _ _
      · obtain ⟨fn, -, rfl⟩ := List.mem_map.mp he
        exact hcp _ _
    · rcases List.mem_singleton.mp he with rfl
      exact hwr _ _
  have hrun1 : runEffs fail (Eff.makedirs (appDest app) :: (cbrEffs base app fs
      ++ [Eff.writeVars (appDest app ++ ["vars.rb"]) (varsFileContent base app)]))
      ⟨fs, [], []⟩
      = .ok ⟨applyEffs fs (Eff.makedirs (appDest app) :: (cbrEffs base app fs
          ++ [Eff.writeVars (appDest app ++ ["vars.rb"]) (varsFileContent base app)])),
          Eff.makedirs (appDest app) :: (cbrEffs base app fs
          ++ [Eff.writeVars (appDest app ++ ["vars.rb"]) (varsFileContent base app)]),
          []⟩ :=
    runEffs_all_ok _ hpre_ok
  have hnorem : ∀ q, Eff.remove q ∉ (Eff.makedirs (appDest app) :: (cbrEffs base app fs
      ++ [Eff.writeVars (appDest app ++ ["vars.rb"]) (varsFileContent base app)])) :=
    fun q => remove_not_mem_scaffold q
  have hform : pathExists (applyEffs fs (Eff.makedirs (appDest app) :: (cbrEffs base app fs
      ++ [Eff.writeVars (appDest app ++ ["vars.rb"]) (varsFileContent base app)])))
      (appDest app ++ ["form.yml.erb"]) = true := by
    refine pathExists_applyEffs_added
      (Eff.copy (baseDir base ++ ["form.yml.erb"]) (appDest app ++ ["form.yml.erb"]))
      ?_ (by simp [addsPath]) (fun q hq => absurd hq (hnorem q)) fs
    refine List.mem_cons_of_mem _ (List.mem_append_left _ ?_)
    rw [cbrEffs]
    exact List.mem_append_right _ (by simp [copyFiles])
  have hmani : pathExists (applyEffs fs (Eff.makedirs (appDest app) :: (cbrEffs base app fs
      ++ [Eff.writeVars (appDest app ++ ["vars.rb"]) (varsFileContent base app)])))
      (appDest app ++ ["manifest.yml.erb"]) = true := by
    refine pathExists_applyEffs_added
      (Eff.copy (baseDir base ++ ["manifest.yml.erb"]) (appDest app ++ ["manifest.yml.erb"]))
      ?_ (by simp [addsPath]) (fun q hq => absurd hq (hnorem q)) fs
    refine List.mem_cons_of_mem _ (List.mem_append_left _ ?_)
    rw [cbrEffs]
    exact List.mem_append_right _ (by simp [copyFiles])
  have hvars : pathExists (applyEffs fs (Eff.makedirs (appDest app) :: (cbrEffs base app fs
      ++ [Eff.writeVars (appDest app ++ ["vars.rb"]) (varsFileContent base app)])))
      (appDest app ++ ["vars.rb"]) = true := by
    refine pathExists_applyEffs_added
      (Eff.writeVars (appDest app ++ ["vars.rb"]) (varsFileContent base app))
      ?_ (by simp [addsPath]) (fun q hq => absurd hq (hnorem q)) fs
    exact List.mem_cons_of_mem _ (List.mem_append_right _ (List.mem_singleton_self _))
  have hdestp : pathExists (applyEffs fs (Eff.makedirs (appDest app) :: (cbrEffs base app fs
      ++ [Eff.writeVars (appDest app ++ ["vars.rb"]) (varsFileContent base app)])))
      (appDest app) = true := by
    refine pathExists_applyEffs_added (Eff.makedirs (appDest app))
      (List.mem_cons_self _ _) (by simp [addsPath])
      (fun q hq => absurd hq (hnorem q)) fs
  rw [hdec, runEffs_append, hrun1, ok_bind] at hca
  rcases hrd with h1 | ⟨h1, h2⟩
  · rw [runEffs_cons, doEff_fails h1, error_bind] at hca
    refine ⟨Eff.render (appDest app ++ ["vars.rb"]) (appDest app ++ ["form.yml.erb"])
        (appDest app ++ ["form.yml"]),
      ⟨applyEffs fs (Eff.makedirs (appDest app) :: (cbrEffs base app fs
          ++ [Eff.writeVars (appDest app ++ ["vars.rb"]) (varsFileContent base app)])),
        Eff.makedirs (appDest app) :: (cbrEffs base app fs
          ++ [Eff.writeVars (appDest app ++ ["vars.rb"]) (varsFileContent base app)]),
        []⟩,
      by simpa [Except.map] using hca, rfl, hform, hmani, hvars,
      fun q hq => hnorem q hq, hdestp,
      fun fail₂ => create_app_skip fail₂ base app hdestp⟩
  · rw [runEffs_cons, doEff_noFail h1, ok_bind, runEffs_cons,
        doEff_fails h2, error_bind] at hca
    refine ⟨Eff.render (appDest app ++ ["vars.rb"]) (appDest app ++ ["manifest.yml.erb"])
        (appDest app ++ ["manifest.yml"]),
      ⟨applyEff (applyEffs fs (Eff.makedirs (appDest app) :: (cbrEffs base app fs
            ++ [Eff.writeVars (appDest app ++ ["vars.rb"]) (varsFileContent base app)])))
          (Eff.render (appDest app ++ ["vars.rb"]) (appDest app ++ ["form.yml.erb"])
            (appDest app ++ ["form.yml"])),
        Eff.makedirs (appDest app) :: (cbrEffs base app fs
          ++ [Eff.writeVars (appDest app ++ ["vars.rb"]) (varsFileContent base app),
              Eff.render (appDest app ++ ["vars.rb"]) (appDest app ++ ["form.yml.erb"])
                (appDest app ++ ["form.yml"])]),
        []⟩,
      by simpa [Except.map] using hca, rfl, ?_, ?_, ?_, ?_, ?_, ?_⟩
    · exact pathExists_mono _ hform
    · exact pathExists_mono _ hmani
    · exact pathExists_mono _ hvars
    · intro q hq
      rcases List.mem_cons.mp hq with h | hq
      · cases h
      · rcases List.mem_append.mp hq with hq | hq
        · by_cases hb : pathExists fs (baseDir base) = true <;>
            simp [cbrEffs, copyFiles, hb] at hq
        · simp at hq
    · exact pathExists_mono _ hdestp
    · exact fun fail₂ => create_app_skip fail₂ base app (pathExists_mono _ hdestp)

/-- Concrete instance of C5: under the oracle failing exactly the `erb`
renders, creating `sApp` aborts at a render with the three files in
place and the app skipped on any rerun. -/
theorem c5_failed_render_leaves_sources_witness :
    ∃ e sf, create_app failRender sBase sApp ⟨[], [], []⟩ = .error (.effFailed e sf)
      ∧ isRender e = true
      ∧ pathExists sf.fs (appDest sApp ++ ["form.yml.erb"]) = true
      ∧ pathExists sf.fs (appDest sApp ++ ["manifest.yml.erb"]) = true
      ∧ pathExists sf.fs (appDest sApp ++ ["vars.rb"]) = true
      ∧ (∀ q, Eff.remove q ∉ sf.trace)
      ∧ pathExists sf.fs (appDest sApp) = true
      ∧ ∀ fail₂, create_app fail₂ sBase sApp ⟨sf.fs, [], []⟩
          = .ok (false, ⟨sf.fs, [], []⟩) :=
  c5_failed_render_leaves_sources failRender sBase sApp [] (by decide)
    (fun _ => rfl) (fun _ _ _ => rfl) (fun _ _ => rfl) (fun _ _ => rfl)
    (Or.inl rfl)

/-! ## C8: every error is fatal, no per-app isolation -/

/-- An aborted loop splits the app list at the failing app: the apps
before it completed, the failing app's processing produced exactly the
carried failure, and the apps after it were never reached. -/
theorem runApps_error_split {fail : Oracle} {base : Base} :
    ∀ (apps : List App) (s : S) (f : RunFailure),
      runApps fail base apps s = .error f →
      ∃ pre bad post spre, apps = pre ++ bad :: post
        ∧ runApps fail base pre s = .ok spre
        ∧ processApp fail base spre bad = .error f := by
  intro apps
  induction apps with
  | nil => intro s f h; rw [runApps_nil] at h; cases h
  | cons a l ih =>
    intro s f h
    rw [runApps_cons] at h
    cases hp : processApp fail base s a with
    | error f' =>
      rw [hp, error_bind] at h
      cases h
      exact ⟨[], a, l, s, rfl, runApps_nil fail base s, hp⟩
    | ok s₁ =>
      rw [hp, ok_bind] at h
      obtain ⟨pre, bad, post, spre, rfl, hpre, hbad⟩ := ih s₁ f h
      exact ⟨a :: pre, bad, post, spre, rfl,
        by rw [runApps_cons, hp, ok_bind]; exact hpre, hbad⟩

/-- **C8.** Every error is fatal to the whole run with no retry and no
per-app isolation: an aborted run splits the app list at a failing app;
the apps before it were fully processed (and those already created keep
their directories at the moment of abort), the failing app's own line
is never printed, and no app after it contributes output or effects. -/
theorem c8_errors_fatal_no_isolation (fail : Oracle) (base : Base)
    (apps : List App) (fs0 : FS) (f : RunFailure)
    (h : runApps fail base apps ⟨fs0, [], []⟩ = .error f) :
    ∃ pre bad post spre, apps = pre ++ bad :: post
      ∧ runApps fail base pre ⟨fs0, [], []⟩ = .ok spre
      ∧ processApp fail base spre bad = .error f
      ∧ (∀ a ∈ pre, pathExists (failState f).fs (appDest a) = true)
      ∧ (failState f).out = spre.out
      ∧ spre.out.length = pre.length := by
  obtain ⟨pre, bad, post, spre, rfl, hpre, hbad⟩ := runApps_error_split apps _ f h
  obtain ⟨hskip, hr⟩ := processApp_err hbad
  obtain ⟨epre, e, epost, hdec, -, -, rfl⟩ := runEffs_error hr
  refine ⟨pre, bad, post, spre, rfl, hpre, hbad, ?_, rfl, ?_⟩
  · intro a ha
    have hd := runApps_dests pre _ _ hpre a ha
    simp only [failState]
    refine pathExists_applyEffs (fun q hq hpq => ?_) hd
    have h4 : q.length = 4 :=
      createEffs_remove_length (hdec ▸ List.mem_append_left _ hq)
    have h3 := appDest_length a
    rw [hpq, h4] at h3
    cases h3
  · obtain ⟨lines, hout, hall⟩ := runApps_out_lines pre _ _ hpre
    rw [hout]
    simpa using hall.length_eq.symm

/-- Concrete instance of C8: with the clone failing, a two-app run
aborts while processing the first app; no line is printed and the
second app is never reached. -/
theorem c8_errors_fatal_no_isolation_witness :
    ∃ pre bad post spre, ([sApp, sApp2] : List App) = pre ++ bad :: post
      ∧ runApps failClone sBase pre ⟨[], [], []⟩ = .ok spre
      ∧ processApp failClone sBase spre bad
          = .error (.effFailed
              (Eff.clone "main" "https://example/repo.git" ["ROOT", "base1"])
              ⟨[⟨["ROOT", "apps", "myapp"], EKind.dir⟩],
               [Eff.makedirs ["ROOT", "apps", "myapp"]], []⟩)
      ∧ (∀ a ∈ pre, pathExists
            (failState (.effFailed
              (Eff.clone "main" "https://example/repo.git" ["ROOT", "base1"])
              ⟨[⟨["ROOT", "apps", "myapp"], EKind.dir⟩],
               [Eff.makedirs ["ROOT", "apps", "myapp"]], []⟩)).fs
            (appDest a) = true)
      ∧ (failState (.effFailed
            (Eff.clone "main" "https://example/repo.git" ["ROOT", "base1"])
            ⟨[⟨["ROOT", "apps", "myapp"], EKind.dir⟩],
             [Eff.makedirs ["ROOT", "apps", "myapp"]], []⟩)).out = spre.out
      ∧ spre.out.length = pre.length :=
  c8_errors_fatal_no_isolation failClone sBase [sApp, sApp2] []
    (.effFailed (Eff.clone "main" "https://example/repo.git" ["ROOT", "base1"])
      ⟨[⟨["ROOT", "apps", "myapp"], EKind.dir⟩],
       [Eff.makedirs ["ROOT", "apps", "myapp"]], []⟩)
    (by rfl)

/-! ## C7: the config sanity check -/

theorem firstMissing_eq_none {α : Type} {m : List (String × α)}
    {keys : List String} :
    firstMissing m keys = none ↔ ∀ k ∈ keys, hasKey m k = true := by
  simp [firstMissing, List.find?_eq_none]

theorem firstBadApp_eq_none {α : Type} :
    ∀ (apps : List (List (String × α))) (i : Nat),
      firstBadApp apps i = none
        ↔ ∀ a ∈ apps, firstMissing a appRequiredKeys = none := by
  intro apps
  induction apps with
  | nil => intro i; simp [firstBadApp]
  | cons a l ih =>
    intro i
    simp only [firstBadApp]
    cases hm : firstMissing a appRequiredKeys with
    | some k =>
      constructor
      · intro h; cases h
      · intro h
        have := h a (List.mem_cons_self _ _)
        rw [hm] at this
        cases this
    | none =>
      rw [ih (i + 1)]
      constructor
      · intro h b hb
        rcases List.mem_cons.mp hb with rfl | hb
        · exact hm
        · exact h b hb
      · intro h b hb
        exact h b (List.mem_cons_of_mem _ hb)

/-- `docOk` is exactly "neither check finds a missing key". -/
theorem docOk_iff {α : Type} (d : RawDoc α) :
    docOk d = true
      ↔ (firstMissing d.base baseRequiredKeys = none
          ∧ firstBadApp d.apps 0 = none) := by
  rw [firstBadApp_eq_none]
  simp only [docOk, Bool.and_eq_true, List.all_eq_true, firstMissing_eq_none]

/-- **C7.** Config loading raises an assertion error iff the base
mapping lacks a required key or some app entry lacks a required key
(`docOk` is the literal conjunction of those key-presence checks); the
successful result is the parsed document itself, unchanged; and on a
bad document `main` aborts with a config error whose carried state has
the initial filesystem and an empty trace — before any filesystem side
effect. -/
theorem c7_load_apps_assertions (α : Type) (d : RawDoc α) :
    ((∃ m, load_apps d = .error m) ↔ docOk d = false)
    ∧ (∀ x, load_apps d = .ok x → x = d)
    ∧ (docOk d = true → load_apps d = .ok d)
    ∧ (docOk d = false →
        ∀ (toCfg : RawDoc α → Config) (fail : Oracle) (fs0 : FS),
          ∃ m, mainRun d toCfg fail fs0 = .error (.configError m ⟨fs0, [], []⟩)) := by
  cases hm : firstMissing d.base baseRequiredKeys with
  | some k =>
    have hdoc : docOk d = false := by
      rcases hdoc : docOk d with _ | _
      · rfl
      · have h1 := ((docOk_iff d).mp hdoc).1
        simp [h1] at hm
    have hload : load_apps d
        = .error ("Base missing required attribute: " ++ k) := by
      simp [load_apps, hm]
    refine ⟨⟨fun _ => hdoc, fun _ => ⟨_, hload⟩⟩, ?_, ?_, ?_⟩
    · intro x hx
      rw [hload] at hx
      cases hx
    · intro h
      rw [hdoc] at h
      cases h
    · intro _ toCfg fail fs0
      exact ⟨"Base missing required attribute: " ++ k, by simp [mainRun, hload]⟩
  | none =>
    cases hb : firstBadApp d.apps 0 with
    | some ik =>
      have hdoc : docOk d = false := by
        rcases hdoc : docOk d with _ | _
        · rfl
        · rw [((docOk_iff d).mp hdoc).2] at hb
          cases hb
      have hload : load_apps d
          = .error ("App " ++ toString ik.1 ++ " is missing required attribute: "
              ++ ik.2) := by
        simp [load_apps, hm, hb]
      refine ⟨⟨fun _ => hdoc, fun _ => ⟨_, hload⟩⟩, ?_, ?_, ?_⟩
      · intro x hx
        rw [hload] at hx
        cases hx
      · intro h
        rw [hdoc] at h
        cases h
      · intro _ toCfg fail fs0
        exact ⟨"App " ++ toString ik.1 ++ " is missing required attribute: "
          ++ ik.2, by simp [mainRun, hload]⟩
    | none =>
      have hdoc : docOk d = true := (docOk_iff d).mpr ⟨hm, hb⟩
      have hload : load_apps d = .ok d := by
        simp [load_apps, hm, hb]
      refine ⟨⟨?_, ?_⟩, ?_, fun _ => hload, ?_⟩
      · intro ⟨m, hx⟩
        rw [hload] at hx
        cases hx
      · intro h
        rw [hdoc] at h
        cases h
      · intro x hx
        rw [hload] at hx
        cases hx
        rfl
      · intro h
        rw [hdoc] at h
        cases h

/-- Concrete instances of C7: a document missing base keys is rejected
before any effect; a complete document is returned unchanged. -/
theorem c7_load_apps_assertions_witness :
    (∃ m, load_apps sDocBad = .error m)
    ∧ load_apps sDocGood = .ok sDocGood
    ∧ (∃ m, mainRun sDocBad (fun _ => ⟨sBase, []⟩) noFail []
        = .error (.configError m ⟨[], [], []⟩)) :=
  ⟨(c7_load_apps_assertions Unit sDocBad).1.mpr (by decide),
   (c7_load_apps_assertions Unit sDocGood).2.2.1 (by decide),
   (c7_load_apps_assertions Unit sDocBad).2.2.2 (by decide)
     (fun _ => ⟨sBase, []⟩) noFail []⟩

end Update
